import Mathlib

/-!
Verification of the geometric core of `science-figure-studio`
(`src/backend/multicell_circles.py`, mirrored in `src/backend/multicell_gui.py`):

* `segment_circle_intersection` — segment/circle intersection by the quadratic
  formula on the parameterization `p1 + t (p2 - p1)`;
* `draw_smart_line` — splitting a segment against a list of circles into
  sub-segments tagged outside/inside (only the pure splitting computation is
  modelled; the final `ax.plot` calls are external rendering);
* `random_cell_positions` — rejection sampling of cell centres with a
  relax-on-stall policy (the random stream is an explicit oracle argument, the
  stdout relaxation messages are an explicit log);
* `ring_positions_inside_cell` — evenly spaced points on a ring.

Python floats are modelled by real numbers.  The one place where IEEE
semantics matters to control flow — division by a zero denominator produces a
non-finite value (NaN here, since the numerator is then also zero) that fails
every subsequent `0 <= t <= 1` range test — is modelled by `fdiv` returning
`Option ℝ`, with `none` standing for the non-finite value.
-/

namespace Multicell

/-- A point `(x, y)`, as the Python 2-tuples / length-2 numpy arrays. -/
@[ext]
structure Pt where
  x : ℝ
  y : ℝ

/-- Componentwise subtraction, `p2 - p1` on numpy arrays. -/
def psub (u v : Pt) : Pt := ⟨u.x - v.x, u.y - v.y⟩

/-- Componentwise addition. -/
def padd (u v : Pt) : Pt := ⟨u.x + v.x, u.y + v.y⟩

/-- Scalar multiple, `t * d` on numpy arrays. -/
def smul (t : ℝ) (u : Pt) : Pt := ⟨t * u.x, t * u.y⟩

/-- Dot product, `np.dot`. -/
def dot (u v : Pt) : ℝ := u.x * v.x + u.y * v.y

/-- Euclidean length of the vector `(dx, dy)`, as `np.hypot dx dy`. -/
noncomputable def hypot (dx dy : ℝ) : ℝ := Real.sqrt (dx ^ 2 + dy ^ 2)

/-- Euclidean norm of a point taken as a vector, `np.linalg.norm`. -/
noncomputable def pnorm (u : Pt) : ℝ := Real.sqrt (dot u u)

/-- Length of the segment from `u` to `v`. -/
noncomputable def segLen (u v : Pt) : ℝ := hypot (v.x - u.x) (v.y - u.y)

/-- IEEE-style float division.  A zero denominator yields a non-finite value
(`0/0 = NaN` on the one reachable zero-denominator path, where the numerator
is also zero), which fails every later `0 <= t <= 1` comparison; `none`
stands for that non-finite value. -/
noncomputable def fdiv (num den : ℝ) : Option ℝ :=
  if den = 0 then none else some (num / den)

/-- Coefficient `a = np.dot(d, d)` of the intersection quadratic, for
`d = p2 - p1`. -/
def quadA (p1 p2 : Pt) : ℝ := dot (psub p2 p1) (psub p2 p1)

/-- Coefficient `b = 2 * np.dot(f, d)`, for `f = p1 - center`. -/
def quadB (p1 p2 center : Pt) : ℝ := 2 * dot (psub p1 center) (psub p2 p1)

/-- Coefficient `c_val = np.dot(f, f) - radius**2` (the segment's second
endpoint is not used, but the argument keeps the quadratic's signature
uniform). -/
def quadC (p1 _p2 center : Pt) (radius : ℝ) : ℝ :=
  dot (psub p1 center) (psub p1 center) - radius ^ 2

/-- Discriminant `disc = b*b - 4*a*c_val`. -/
def quadDisc (p1 p2 center : Pt) (radius : ℝ) : ℝ :=
  quadB p1 p2 center * quadB p1 p2 center - 4 * quadA p1 p2 * quadC p1 p2 center radius

/-- The root `t1 = (-b - disc) / (2*a)` (after `disc = np.sqrt(disc)`), as an
IEEE value: `none` when the denominator vanishes. -/
noncomputable def sciT1 (p1 p2 center : Pt) (radius : ℝ) : Option ℝ :=
  fdiv (-(quadB p1 p2 center) - Real.sqrt (quadDisc p1 p2 center radius)) (2 * quadA p1 p2)

/-- The root `t2 = (-b + disc) / (2*a)`. -/
noncomputable def sciT2 (p1 p2 center : Pt) (radius : ℝ) : Option ℝ :=
  fdiv (-(quadB p1 p2 center) + Real.sqrt (quadDisc p1 p2 center radius)) (2 * quadA p1 p2)

/-- One root's contribution to `pts`: `if 0 <= t <= 1: pts.append(tuple(p1 + t*d))`.
A non-finite `t` (modelled `none`) fails the range test and contributes nothing. -/
noncomputable def rootPt (p1 p2 : Pt) : Option ℝ → List Pt
  | none => []
  | some t => if 0 ≤ t ∧ t ≤ 1 then [padd p1 (smul t (psub p2 p1))] else []

/-- The list `pts` built from the two roots, in the source's append order. -/
noncomputable def sciPts (p1 p2 center : Pt) (radius : ℝ) : List Pt :=
  rootPt p1 p2 (sciT1 p1 p2 center radius) ++ rootPt p1 p2 (sciT2 p1 p2 center radius)

/-- Model of `segment_circle_intersection(p1, p2, center, radius)`:
`None` when the discriminant is negative, otherwise `pts if pts else None`. -/
noncomputable def segment_circle_intersection (p1 p2 center : Pt) (radius : ℝ) :
    Option (List Pt) :=
  if quadDisc p1 p2 center radius < 0 then none
  else
    match sciPts p1 p2 center radius with
    | [] => none
    | p :: ps => some (p :: ps)

/-- The root `t1` as a real number, meaningful when the quadratic is
nondegenerate (`p1 ≠ p2`). -/
noncomputable def root1 (p1 p2 center : Pt) (radius : ℝ) : ℝ :=
  (-(quadB p1 p2 center) - Real.sqrt (quadDisc p1 p2 center radius)) / (2 * quadA p1 p2)

/-- The root `t2` as a real number. -/
noncomputable def root2 (p1 p2 center : Pt) (radius : ℝ) : ℝ :=
  (-(quadB p1 p2 center) + Real.sqrt (quadDisc p1 p2 center radius)) / (2 * quadA p1 p2)

/-- One occluding circle, an entry of the zipped `circle_centers` /
`circle_radii` lists passed to `draw_smart_line`. -/
structure Circle where
  center : Pt
  radius : ℝ

/-- One sub-segment produced by the splitter: the Python triple
`(a, b, outside)`. -/
structure Seg where
  a : Pt
  b : Pt
  outside : Bool

/-- Python's tuple comparison on 2-tuples, used by `sorted(inter)`:
coordinate-lexicographic order. -/
def lexLe (u v : Pt) : Prop := u.x < v.x ∨ (u.x = v.x ∧ u.y ≤ v.y)

noncomputable instance : DecidableRel lexLe := fun u v => by
  unfold lexLe; infer_instance

instance : IsTotal Pt lexLe where
  total u v := by
    rcases lt_trichotomy u.x v.x with h | h | h
    · exact Or.inl (Or.inl h)
    · rcases le_total u.y v.y with hy | hy
      · exact Or.inl (Or.inr ⟨h, hy⟩)
      · exact Or.inr (Or.inr ⟨h.symm, hy⟩)
    · exact Or.inr (Or.inl h)

instance : IsTrans Pt lexLe where
  trans u v w huv hvw := by
    rcases huv with h1 | ⟨e1, h1⟩ <;> rcases hvw with h2 | ⟨e2, h2⟩
    · exact Or.inl (h1.trans h2)
    · exact Or.inl (e2 ▸ h1)
    · exact Or.inl (e1 ▸ h2)
    · exact Or.inr ⟨e1.trans e2, h1.trans h2⟩

/-- Midpoint `((s[0]+e[0])/2, (s[1]+e[1])/2)` of a piece. -/
noncomputable def midOf (s e : Pt) : Pt := ⟨(s.x + e.x) / 2, (s.y + e.y) / 2⟩

/-- The tag a freshly cut piece receives:
`inside = np.hypot(mid - center) < radius; append((s, e, not inside))`. -/
noncomputable def pieceTag (center : Pt) (radius : ℝ) (s e : Pt) : Bool :=
  if hypot ((midOf s e).x - center.x) ((midOf s e).y - center.y) < radius
  then false else true

/-- Consecutive pairs of a list, `zip(pts[:-1], pts[1:])`. -/
def consecPairs (l : List Pt) : List (Pt × Pt) := l.zip l.tail

/-- The pieces a pending sub-segment `(a, b)` is cut into by one circle whose
intersection list is `inter`: `pts = [a] + sorted(inter) + [b]`, consecutive
pairs, each tagged by the midpoint containment test. -/
noncomputable def cutPieces (center : Pt) (radius : ℝ) (a b : Pt) (inter : List Pt) :
    List Seg :=
  (consecPairs (a :: (List.insertionSort lexLe inter ++ [b]))).map
    fun q => ⟨q.1, q.2, pieceTag center radius q.1 q.2⟩

/-- One pass of `draw_smart_line`'s outer loop: rebuild `new_segments` from
`segments` against a single circle. -/
noncomputable def splitPass (c : Circle) (segs : List Seg) : List Seg :=
  segs.flatMap fun sg =>
    match segment_circle_intersection sg.a sg.b c.center c.radius with
    | none => [sg]
    | some inter => cutPieces c.center c.radius sg.a sg.b inter

/-- The pure splitting computation of `draw_smart_line(ax, p1, p2, ...)`:
start from the single full segment tagged outside (`True`) and fold the
per-circle pass over the circle list.  The trailing `ax.plot` calls render
this list and are external. -/
noncomputable def draw_smart_line (p1 p2 : Pt) (circles : List Circle) : List Seg :=
  circles.foldl (fun segs c => splitPass c segs) [⟨p1, p2, true⟩]

/-- Total path length of a list of sub-segments. -/
noncomputable def totalLen (segs : List Seg) : ℝ :=
  (segs.map fun sg => segLen sg.a sg.b).sum

/-- A sub-segment carrying, besides the Python triple, the ghost record of the
last circle whose intersection test fired on it (`none`: never touched).
Erasing the ghost field recovers the source's computation exactly
(`draw_smart_lineT_erase`). -/
structure TSeg where
  a : Pt
  b : Pt
  outside : Bool
  touched : Option Circle

/-- Ghost erasure from a traced sub-segment to the source's triple. -/
def eraseT (sg : TSeg) : Seg := ⟨sg.a, sg.b, sg.outside⟩

/-- The per-circle pass instrumented with the ghost `touched` field: pieces
cut by circle `c` record `some c`, untouched segments pass through unchanged. -/
noncomputable def splitPassT (c : Circle) (segs : List TSeg) : List TSeg :=
  segs.flatMap fun sg =>
    match segment_circle_intersection sg.a sg.b c.center c.radius with
    | none => [sg]
    | some inter =>
        (cutPieces c.center c.radius sg.a sg.b inter).map
          fun s => ⟨s.a, s.b, s.outside, some c⟩

/-- The instrumented splitting computation. -/
noncomputable def draw_smart_lineT (p1 p2 : Pt) (circles : List Circle) : List TSeg :=
  circles.foldl (fun segs c => splitPassT c segs) [⟨p1, p2, true, none⟩]

/-- The tag discipline the spec describes: a piece never intersected by any
circle keeps the initial `outside = true` tag, and a piece last cut by circle
`c` carries exactly `c`'s midpoint containment tag. -/
def TagOK (sg : TSeg) : Prop :=
  match sg.touched with
  | none => sg.outside = true
  | some c => sg.outside = pieceTag c.center c.radius sg.a sg.b

/-- Operational reading of one pass of `draw_smart_line`'s outer loop, as a
relation: how `new_segments` is built from `segments` for one circle. -/
inductive PassRel (c : Circle) : List Seg → List Seg → Prop
  | nil : PassRel c [] []
  | keep (sg : Seg) {rest out : List Seg} :
      segment_circle_intersection sg.a sg.b c.center c.radius = none →
      PassRel c rest out → PassRel c (sg :: rest) (sg :: out)
  | cut (sg : Seg) (inter : List Pt) {rest out : List Seg} :
      segment_circle_intersection sg.a sg.b c.center c.radius = some inter →
      PassRel c rest out →
      PassRel c (sg :: rest) (cutPieces c.center c.radius sg.a sg.b inter ++ out)

/-- Operational reading of the outer loop of `draw_smart_line`: from the
current `segments` list, process the remaining circles in order. -/
inductive SplitLoop : List Circle → List Seg → List Seg → Prop
  | done (segs : List Seg) : SplitLoop [] segs segs
  | step (c : Circle) {cs : List Circle} {segs segs1 out : List Seg} :
      PassRel c segs segs1 → SplitLoop cs segs1 out → SplitLoop (c :: cs) segs out

/-- An execution of the splitting computation of `draw_smart_line` on
`(p1, p2, circles)` that produced the sub-segment list `out`. -/
def SplitRel (p1 p2 : Pt) (circles : List Circle) (out : List Seg) : Prop :=
  SplitLoop circles [⟨p1, p2, true⟩] out

/-- Direction vector that is coordinate-lexicographically increasing: along
such a segment, Python's tuple order on points agrees with the order of the
parameter `t`. -/
def lexPos (d : Pt) : Prop := 0 < d.x ∨ (d.x = 0 ∧ 0 < d.y)

/-- The point at parameter `t` on the line through `p1` with direction `d`. -/
noncomputable def lineAt (p1 d : Pt) (t : ℝ) : Pt := padd p1 (smul t d)

/-- The sub-segment list is a monotone chain along the line through `p1` with
direction `d`, starting at parameter `t` and ending at parameter `u`:
consecutive endpoints coincide and parameters never decrease. -/
def ChainFrom (p1 d : Pt) : ℝ → List Seg → ℝ → Prop
  | t, [], u => t = u
  | t, sg :: rest, u =>
      ∃ v, t ≤ v ∧ sg.a = lineAt p1 d t ∧ sg.b = lineAt p1 d v ∧
        ChainFrom p1 d v rest u

/-- Module constant `LIVING_RADIUS = 0.10`. -/
noncomputable def LIVING_RADIUS : ℝ := 0.10

/-- The ring radius computed by `ring_positions_inside_cell`: clearance from
the outer border and the living circle, favouring 95% of the outer limit,
clamped by the outer limit, with the `<= 0` fallback to half the cell
radius. -/
noncomputable def ring_radius (cell_radius item_radius : ℝ) : ℝ :=
  let outer_limit := cell_radius - item_radius - 0.01
  let inner_limit := LIVING_RADIUS + item_radius + 0.002
  let r1 := max inner_limit (outer_limit * 0.95)
  let r2 := min r1 outer_limit
  if r2 ≤ 0 then cell_radius * 0.5 else r2

/-- Model of `ring_positions_inside_cell(center, cell_radius, n_items,
item_radius)`.  The random starting angle `random.uniform(0, 2*np.pi)` is an
explicit oracle argument `start_angle`; `np.linspace(0, 2*np.pi, n_items,
endpoint=False)` contributes `i * (2*np.pi / n_items)` for `i < n_items`. -/
noncomputable def ring_positions_inside_cell (center : Pt) (cell_radius : ℝ)
    (n_items : ℕ) (item_radius : ℝ) (start_angle : ℝ) : List Pt :=
  (List.range n_items).map fun (i : ℕ) =>
    ⟨center.x + ring_radius cell_radius item_radius *
        Real.cos (start_angle + i * (2 * Real.pi / n_items)),
     center.y + ring_radius cell_radius item_radius *
        Real.sin (start_angle + i * (2 * Real.pi / n_items))⟩

/-- State of `random_cell_positions`' sampling loop: the accepted `centres`,
the consecutive-rejection counter `attempts`, the current `min_dist`, the
position `idx` of the next draw from the random stream, and the log of
relaxation messages written to stdout (each records the new, relaxed
`min_dist`). -/
structure PlaceState where
  centres : List Pt
  attempts : ℕ
  minDist : ℝ
  idx : ℕ
  log : List ℝ

/-- One iteration of the `while` body of `random_cell_positions`: draw `p`,
accept it when its distance to every accepted centre strictly exceeds
`min_dist` (resetting `attempts`), otherwise bump `attempts` and, when the
bumped counter reaches `max_attempts`, relax `min_dist` by `relax_factor`,
reset the counter and log the relaxation. -/
noncomputable def placeStep (stream : ℕ → Pt) (maxAtt : ℕ) (relaxFactor : ℝ)
    (s : PlaceState) : PlaceState :=
  let p := stream s.idx
  if ∀ c ∈ s.centres, pnorm (psub p c) > s.minDist then
    { centres := s.centres ++ [p], attempts := 0, minDist := s.minDist,
      idx := s.idx + 1, log := s.log }
  else if maxAtt ≤ s.attempts + 1 then
    { centres := s.centres, attempts := 0, minDist := s.minDist * relaxFactor,
      idx := s.idx + 1, log := s.log ++ [s.minDist * relaxFactor] }
  else
    { centres := s.centres, attempts := s.attempts + 1, minDist := s.minDist,
      idx := s.idx + 1, log := s.log }

/-- The `while len(centres) < n` loop, with explicit fuel: `none` means the
fuel ran out before `n` centres were accepted (the source would simply keep
sampling). -/
noncomputable def placeLoop (stream : ℕ → Pt) (maxAtt : ℕ) (relaxFactor : ℝ)
    (n : ℕ) : ℕ → PlaceState → Option PlaceState
  | 0, s => if n ≤ s.centres.length then some s else none
  | fuel + 1, s =>
      if n ≤ s.centres.length then some s
      else placeLoop stream maxAtt relaxFactor n fuel (placeStep stream maxAtt relaxFactor s)

/-- Model of `random_cell_positions(n, min_dist)` at the source's default
`max_attempts=6000`, `relax_factor=0.9`, run against the random stream
`stream` with the given fuel: the accepted centres, in acceptance order. -/
noncomputable def random_cell_positions (stream : ℕ → Pt) (fuel : ℕ) (n : ℕ)
    (min_dist : ℝ) : Option (List Pt) :=
  (placeLoop stream 6000 0.9 n fuel ⟨[], 0, min_dist, 0, []⟩).map PlaceState.centres

/-- The ring-radius formula in the spec's words: the larger of the inner
bound and 95% of the outer bound, clamped to not exceed the outer bound, with
the `<= 0` fallback to half the cell radius. -/
noncomputable def ring_radius_spec (cell_radius item_radius : ℝ) : ℝ :=
  if min (max (LIVING_RADIUS + item_radius + 0.002)
        (0.95 * (cell_radius - item_radius - 0.01)))
      (cell_radius - item_radius - 0.01) ≤ 0
  then cell_radius * 0.5
  else min (max (LIVING_RADIUS + item_radius + 0.002)
        (0.95 * (cell_radius - item_radius - 0.01)))
      (cell_radius - item_radius - 0.01)

/-- Acceptance-time separation: each record pairs an accepted centre with the
`min_dist` in force when it was accepted, and every later centre is strictly
farther than its own acceptance-time `min_dist` from every earlier one. -/
def AcceptOK (recs : List (Pt × ℝ)) : Prop :=
  List.Pairwise (fun r s => pnorm (psub s.1 r.1) > s.2) recs

lemma sqrt_eval {x y : ℝ} (hy : 0 ≤ y) (h : y ^ 2 = x) : Real.sqrt x = y := by
  rw [← h, Real.sqrt_sq hy]

lemma segLen_eval (u v : Pt) (w : ℝ) (hw : 0 ≤ w)
    (h : (v.x - u.x) ^ 2 + (v.y - u.y) ^ 2 = w ^ 2) : segLen u v = w := by
  rw [segLen, hypot]
  exact sqrt_eval hw h.symm

lemma pieceTag_of_lt (center : Pt) (radius : ℝ) (s e : Pt) (v : ℝ) (hv : 0 ≤ v)
    (hcalc : ((s.x + e.x) / 2 - center.x) ^ 2 + ((s.y + e.y) / 2 - center.y) ^ 2 = v ^ 2)
    (hlt : v < radius) : pieceTag center radius s e = false := by
  have hh : hypot ((midOf s e).x - center.x) ((midOf s e).y - center.y) = v := by
    rw [hypot]
    exact sqrt_eval hv hcalc.symm
  rw [pieceTag, hh, if_pos hlt]

lemma quadA_nonneg (p1 p2 : Pt) : 0 ≤ quadA p1 p2 := by
  have h1 := mul_self_nonneg (p2.x - p1.x)
  have h2 := mul_self_nonneg (p2.y - p1.y)
  simp only [quadA, dot, psub]
  linarith

lemma quadA_pos (p1 p2 : Pt) (h : p1 ≠ p2) : 0 < quadA p1 p2 := by
  have hne : p2.x - p1.x ≠ 0 ∨ p2.y - p1.y ≠ 0 := by
    by_contra hc
    push_neg at hc
    exact h (by ext <;> linarith [hc.1, hc.2])
  simp only [quadA, dot, psub]
  rcases hne with hx | hy
  · have := mul_self_pos.mpr hx
    have := mul_self_nonneg (p2.y - p1.y)
    linarith
  · have := mul_self_pos.mpr hy
    have := mul_self_nonneg (p2.x - p1.x)
    linarith

lemma sciT1_eq (p1 p2 center : Pt) (radius : ℝ) (h : quadA p1 p2 ≠ 0) :
    sciT1 p1 p2 center radius = some (root1 p1 p2 center radius) := by
  simp [sciT1, fdiv, root1, h]

lemma sciT2_eq (p1 p2 center : Pt) (radius : ℝ) (h : quadA p1 p2 ≠ 0) :
    sciT2 p1 p2 center radius = some (root2 p1 p2 center radius) := by
  simp [sciT2, fdiv, root2, h]

lemma sciPts_eq (p1 p2 center : Pt) (radius : ℝ) (h : quadA p1 p2 ≠ 0) :
    sciPts p1 p2 center radius =
      (if 0 ≤ root1 p1 p2 center radius ∧ root1 p1 p2 center radius ≤ 1
       then [padd p1 (smul (root1 p1 p2 center radius) (psub p2 p1))] else []) ++
      (if 0 ≤ root2 p1 p2 center radius ∧ root2 p1 p2 center radius ≤ 1
       then [padd p1 (smul (root2 p1 p2 center radius) (psub p2 p1))] else []) := by
  rw [sciPts, sciT1_eq p1 p2 center radius h, sciT2_eq p1 p2 center radius h]
  rfl

/-- C4: for every zero-length segment (`p1 = p2`, degenerate quadratic with
leading coefficient `a = 0`) and every circle, the intersection routine
returns the explicit fallback `none` to its caller: the IEEE `0/0` the source
performs produces a NaN that fails both `0 <= t <= 1` range tests, so no
exception and no non-finite value is propagated. -/
theorem segment_circle_intersection_zero_length_fallback (p center : Pt) (radius : ℝ) :
    segment_circle_intersection p p center radius = none := by
  have hA : quadA p p = 0 := by simp [quadA, dot, psub]
  have hD : quadDisc p p center radius = 0 := by
    simp [quadDisc, quadB, hA, dot, psub]
  have h1 : sciT1 p p center radius = none := by simp [sciT1, fdiv, hA]
  have h2 : sciT2 p p center radius = none := by simp [sciT2, fdiv, hA]
  simp [segment_circle_intersection, hD, sciPts, h1, h2, rootPt]

lemma sci_none_iff (p1 p2 center : Pt) (radius : ℝ) (h : p1 ≠ p2) :
    segment_circle_intersection p1 p2 center radius = none ↔
      quadDisc p1 p2 center radius < 0 ∨
        (¬(0 ≤ root1 p1 p2 center radius ∧ root1 p1 p2 center radius ≤ 1) ∧
         ¬(0 ≤ root2 p1 p2 center radius ∧ root2 p1 p2 center radius ≤ 1)) := by
  have hA := (quadA_pos p1 p2 h).ne'
  by_cases hd : quadDisc p1 p2 center radius < 0
  · simp [segment_circle_intersection, hd]
  · rw [segment_circle_intersection, if_neg hd, sciPts_eq p1 p2 center radius hA]
    by_cases h1 : 0 ≤ root1 p1 p2 center radius ∧ root1 p1 p2 center radius ≤ 1 <;>
      by_cases h2 : 0 ≤ root2 p1 p2 center radius ∧ root2 p1 p2 center radius ≤ 1 <;>
      simp [h1, h2, hd]

lemma sci_some_eq (p1 p2 center : Pt) (radius : ℝ) (h : p1 ≠ p2) (l : List Pt)
    (hl : segment_circle_intersection p1 p2 center radius = some l) :
    l = (if 0 ≤ root1 p1 p2 center radius ∧ root1 p1 p2 center radius ≤ 1
         then [padd p1 (smul (root1 p1 p2 center radius) (psub p2 p1))] else []) ++
        (if 0 ≤ root2 p1 p2 center radius ∧ root2 p1 p2 center radius ≤ 1
         then [padd p1 (smul (root2 p1 p2 center radius) (psub p2 p1))] else []) := by
  have hA := (quadA_pos p1 p2 h).ne'
  by_cases hd : quadDisc p1 p2 center radius < 0
  · rw [segment_circle_intersection, if_pos hd] at hl
    exact absurd hl (by simp)
  · rw [segment_circle_intersection, if_neg hd] at hl
    rw [← sciPts_eq p1 p2 center radius hA]
    cases hpts : sciPts p1 p2 center radius with
    | nil => rw [hpts] at hl; simp at hl
    | cons p ps => rw [hpts] at hl; simp at hl; exact hl.symm

/-- C3: for a nondegenerate segment, `segment_circle_intersection` returns
`none` exactly when the discriminant is negative or when neither root lies in
`[0, 1]`; otherwise it returns the points `p1 + t (p2 - p1)` for precisely
those roots `t` in `[0, 1]` (one or two of them, in root order).  In
particular it returns `none` for the segment `(0,0)-(1,0)` against the circle
centred `(5,5)` of radius 1, and exactly `[(-1,0), (1,0)]` for the segment
`(-2,0)-(2,0)` against the unit circle at the origin. -/
theorem segment_circle_intersection_characterization (p1 p2 center : Pt) (radius : ℝ)
    (h : p1 ≠ p2) :
    (segment_circle_intersection p1 p2 center radius = none ↔
      quadDisc p1 p2 center radius < 0 ∨
        (¬(0 ≤ root1 p1 p2 center radius ∧ root1 p1 p2 center radius ≤ 1) ∧
         ¬(0 ≤ root2 p1 p2 center radius ∧ root2 p1 p2 center radius ≤ 1))) ∧
    (∀ l, segment_circle_intersection p1 p2 center radius = some l →
      l = (if 0 ≤ root1 p1 p2 center radius ∧ root1 p1 p2 center radius ≤ 1
           then [padd p1 (smul (root1 p1 p2 center radius) (psub p2 p1))] else []) ++
          (if 0 ≤ root2 p1 p2 center radius ∧ root2 p1 p2 center radius ≤ 1
           then [padd p1 (smul (root2 p1 p2 center radius) (psub p2 p1))] else []) ∧
      l ≠ []) ∧
    segment_circle_intersection ⟨0, 0⟩ ⟨1, 0⟩ ⟨5, 5⟩ 1 = none ∧
    segment_circle_intersection ⟨-2, 0⟩ ⟨2, 0⟩ ⟨0, 0⟩ 1 =
      some [⟨-1, 0⟩, ⟨1, 0⟩] := by
  refine ⟨sci_none_iff p1 p2 center radius h, ?_, ?_, ?_⟩
  · intro l hl
    refine ⟨sci_some_eq p1 p2 center radius h l hl, ?_⟩
    intro hnil
    rw [hnil] at hl
    rw [segment_circle_intersection] at hl
    split at hl
    · exact absurd hl (by simp)
    · cases hpts : sciPts p1 p2 center radius with
      | nil => rw [hpts] at hl; simp at hl
      | cons p ps => rw [hpts] at hl; simp at hl
  · have hd : quadDisc ⟨0, 0⟩ ⟨1, 0⟩ ⟨5, 5⟩ 1 < 0 := by
      norm_num [quadDisc, quadA, quadB, quadC, dot, psub]
    rw [segment_circle_intersection, if_pos hd]
  · have hdisc : quadDisc ⟨-2, 0⟩ ⟨2, 0⟩ ⟨0, 0⟩ 1 = 64 := by
      norm_num [quadDisc, quadA, quadB, quadC, dot, psub]
    have hsqrt : Real.sqrt (quadDisc ⟨-2, 0⟩ ⟨2, 0⟩ ⟨0, 0⟩ 1) = 8 := by
      rw [hdisc, show (64 : ℝ) = 8 ^ 2 by norm_num,
        Real.sqrt_sq (by norm_num : (0 : ℝ) ≤ 8)]
    have hT1 : sciT1 ⟨-2, 0⟩ ⟨2, 0⟩ ⟨0, 0⟩ 1 = some (1 / 4) := by
      simp only [sciT1, fdiv, hsqrt]
      norm_num [quadA, quadB, dot, psub]
    have hT2 : sciT2 ⟨-2, 0⟩ ⟨2, 0⟩ ⟨0, 0⟩ 1 = some (3 / 4) := by
      simp only [sciT2, fdiv, hsqrt]
      norm_num [quadA, quadB, dot, psub]
    have hpts : sciPts ⟨-2, 0⟩ ⟨2, 0⟩ ⟨0, 0⟩ 1 = [⟨-1, 0⟩, ⟨1, 0⟩] := by
      rw [sciPts, hT1, hT2]
      norm_num [rootPt, padd, smul, psub, Pt.ext_iff]
    rw [segment_circle_intersection, if_neg (by rw [hdisc]; norm_num), hpts]

/-- Witness for C3 at the concrete input of the claim's first example. -/
theorem segment_circle_intersection_characterization_witness :
    segment_circle_intersection ⟨0, 0⟩ ⟨1, 0⟩ ⟨5, 5⟩ 1 = none :=
  (segment_circle_intersection_characterization ⟨0, 0⟩ ⟨1, 0⟩ ⟨5, 5⟩ 1
    (by simp [Pt.ext_iff])).2.2.1

/-- C10: for a nondegenerate tangent configuration — zero discriminant with
the single root in `[0, 1]` — the intersection routine appends the same point
under both range tests and so returns that point twice, not a one-element
list. -/
theorem tangent_double_point (p1 p2 center : Pt) (radius : ℝ) (h : p1 ≠ p2)
    (hd : quadDisc p1 p2 center radius = 0)
    (h0 : 0 ≤ root1 p1 p2 center radius) (h1 : root1 p1 p2 center radius ≤ 1) :
    segment_circle_intersection p1 p2 center radius =
      some [padd p1 (smul (root1 p1 p2 center radius) (psub p2 p1)),
            padd p1 (smul (root1 p1 p2 center radius) (psub p2 p1))] := by
  have hA := (quadA_pos p1 p2 h).ne'
  have heq : root2 p1 p2 center radius = root1 p1 p2 center radius := by
    rw [root1, root2, hd, Real.sqrt_zero]
    ring
  have hpts : sciPts p1 p2 center radius =
      [padd p1 (smul (root1 p1 p2 center radius) (psub p2 p1)),
       padd p1 (smul (root1 p1 p2 center radius) (psub p2 p1))] := by
    rw [sciPts, sciT1_eq p1 p2 center radius hA, sciT2_eq p1 p2 center radius hA, heq]
    simp [rootPt, h0, h1]
  rw [segment_circle_intersection, if_neg (by rw [hd]; norm_num), hpts]

/-- Witness for C10: the horizontal segment `(-2,1)-(2,1)` is tangent to the
unit circle at the origin; the touching point `(0,1)` is returned twice. -/
theorem tangent_double_point_witness :
    segment_circle_intersection ⟨-2, 1⟩ ⟨2, 1⟩ ⟨0, 0⟩ 1 =
      some [⟨0, 1⟩, ⟨0, 1⟩] := by
  have hdisc : quadDisc ⟨-2, 1⟩ ⟨2, 1⟩ ⟨0, 0⟩ 1 = 0 := by
    norm_num [quadDisc, quadA, quadB, quadC, dot, psub]
  have hroot : root1 ⟨-2, 1⟩ ⟨2, 1⟩ ⟨0, 0⟩ 1 = 1 / 2 := by
    rw [root1, hdisc, Real.sqrt_zero]
    norm_num [quadA, quadB, dot, psub]
  have h := tangent_double_point ⟨-2, 1⟩ ⟨2, 1⟩ ⟨0, 0⟩ 1 (by norm_num [Pt.ext_iff]) hdisc
    (by rw [hroot]; norm_num) (by rw [hroot]; norm_num)
  rw [h, hroot]
  norm_num [padd, smul, psub, Pt.ext_iff]

lemma ring_positions_dist (cell_radius item_radius : ℝ) (center : Pt)
    (start_angle : ℝ) (n_items : ℕ) :
    ∀ p ∈ ring_positions_inside_cell center cell_radius n_items item_radius start_angle,
      segLen center p = |ring_radius cell_radius item_radius| := by
  intro p hp
  simp only [ring_positions_inside_cell, List.mem_map, List.mem_range] at hp
  obtain ⟨i, _, rfl⟩ := hp
  simp only [segLen, hypot]
  have e1 : center.x + ring_radius cell_radius item_radius *
      Real.cos (start_angle + i * (2 * Real.pi / n_items)) - center.x =
      ring_radius cell_radius item_radius *
      Real.cos (start_angle + i * (2 * Real.pi / n_items)) := by ring
  have e2 : center.y + ring_radius cell_radius item_radius *
      Real.sin (start_angle + i * (2 * Real.pi / n_items)) - center.y =
      ring_radius cell_radius item_radius *
      Real.sin (start_angle + i * (2 * Real.pi / n_items)) := by ring
  rw [e1, e2, mul_pow, mul_pow, ← mul_add, add_comm
    (Real.cos (start_angle + i * (2 * Real.pi / n_items)) ^ 2),
    Real.sin_sq_add_cos_sq, mul_one, Real.sqrt_sq_eq_abs]

/-- C8: the ring radius used by `ring_positions_inside_cell` is exactly
`min (max (living + item + eps_inner) (0.95 * (cell - item - eps_outer)))
(cell - item - eps_outer)`, and whenever that value is not positive the
function uses half the cell radius instead; the points are all placed at that
radius from the centre. -/
theorem ring_radius_formula_and_fallback (cell_radius item_radius : ℝ) :
    ring_radius cell_radius item_radius = ring_radius_spec cell_radius item_radius ∧
    (min (max (LIVING_RADIUS + item_radius + 0.002)
          (0.95 * (cell_radius - item_radius - 0.01)))
        (cell_radius - item_radius - 0.01) ≤ 0 →
      ring_radius cell_radius item_radius = cell_radius * 0.5) ∧
    ∀ center start_angle n_items,
      ∀ p ∈ ring_positions_inside_cell center cell_radius n_items item_radius start_angle,
        segLen center p = |ring_radius cell_radius item_radius| := by
  refine ⟨?_, ?_, fun center start_angle n_items =>
    ring_positions_dist cell_radius item_radius center start_angle n_items⟩
  · simp only [ring_radius, ring_radius_spec,
      mul_comm (cell_radius - item_radius - 0.01) 0.95]
  · intro hle
    simp only [ring_radius]
    rw [mul_comm (cell_radius - item_radius - 0.01) 0.95, if_pos hle]

/-- C7: `ring_positions_inside_cell` returns exactly `n_items` points, each
at the same distance (the absolute ring radius) from the centre, the `i`-th
placed at angle `start_angle + i * (2*pi / n_items)` — consecutive points are
thus spaced by exactly `2*pi / n_items`, offset by the single per-call
starting angle. -/
theorem ring_positions_count_radius_spacing (center : Pt)
    (cell_radius item_radius start_angle : ℝ) (k : ℕ) (_hk : 1 ≤ k) :
    (ring_positions_inside_cell center cell_radius k item_radius start_angle).length = k ∧
    (∀ p ∈ ring_positions_inside_cell center cell_radius k item_radius start_angle,
      segLen center p = |ring_radius cell_radius item_radius|) ∧
    ∀ i : ℕ, i < k →
      (ring_positions_inside_cell center cell_radius k item_radius start_angle)[i]? =
        some ⟨center.x + ring_radius cell_radius item_radius *
                Real.cos (start_angle + i * (2 * Real.pi / k)),
              center.y + ring_radius cell_radius item_radius *
                Real.sin (start_angle + i * (2 * Real.pi / k))⟩ := by
  refine ⟨by simp only [ring_positions_inside_cell, List.length_map, List.length_range],
    ?_, ?_⟩
  · exact ring_positions_dist cell_radius item_radius center start_angle k
  · intro i hi
    simp only [ring_positions_inside_cell, List.getElem?_map, List.getElem?_range, hi,
      if_true, Option.map_some']

/-- Witness for C7 at the source's configuration: 9 function nodes in a cell
of radius 0.22 with item radius 0.05. -/
theorem ring_positions_count_radius_spacing_witness :
    (ring_positions_inside_cell ⟨0, 0⟩ 0.22 9 0.05 0).length = 9 :=
  (ring_positions_count_radius_spacing ⟨0, 0⟩ 0.22 0.05 0 9 (by norm_num)).1

/-- C6: one loop iteration of `random_cell_positions` at the source constants
(threshold 6000, factor 0.9).  When the bumped rejection counter reaches the
threshold, `min_dist` is multiplied by 0.9, the counter is reset and the
relaxation is logged to stdout (not silent); an accepted candidate is
appended and also resets the counter; an ordinary rejection only bumps the
counter. -/
theorem random_cell_positions_relaxation_policy (stream : ℕ → Pt) (s : PlaceState) :
    ((¬ ∀ c ∈ s.centres, pnorm (psub (stream s.idx) c) > s.minDist) →
      6000 ≤ s.attempts + 1 →
      placeStep stream 6000 0.9 s =
        { centres := s.centres, attempts := 0, minDist := s.minDist * 0.9,
          idx := s.idx + 1, log := s.log ++ [s.minDist * 0.9] }) ∧
    ((∀ c ∈ s.centres, pnorm (psub (stream s.idx) c) > s.minDist) →
      placeStep stream 6000 0.9 s =
        { centres := s.centres ++ [stream s.idx], attempts := 0,
          minDist := s.minDist, idx := s.idx + 1, log := s.log }) ∧
    ((¬ ∀ c ∈ s.centres, pnorm (psub (stream s.idx) c) > s.minDist) →
      s.attempts + 1 < 6000 →
      placeStep stream 6000 0.9 s =
        { centres := s.centres, attempts := s.attempts + 1, minDist := s.minDist,
          idx := s.idx + 1, log := s.log }) := by
  refine ⟨?_, ?_, ?_⟩
  · intro hrej hmax
    simp only [placeStep]
    rw [if_neg hrej, if_pos hmax]
  · intro hacc
    simp only [placeStep]
    rw [if_pos hacc]
  · intro hrej hlt
    simp only [placeStep]
    rw [if_neg hrej, if_neg (by omega)]

lemma placeStep_centres (stream : ℕ → Pt) (maxAtt : ℕ) (relaxFactor : ℝ)
    (s : PlaceState) :
    ∃ tail, (placeStep stream maxAtt relaxFactor s).centres = s.centres ++ tail := by
  simp only [placeStep]
  split_ifs
  · exact ⟨[stream s.idx], rfl⟩
  · exact ⟨[], by simp⟩
  · exact ⟨[], by simp⟩

lemma placeStep_length (stream : ℕ → Pt) (maxAtt : ℕ) (relaxFactor : ℝ)
    (s : PlaceState) :
    (placeStep stream maxAtt relaxFactor s).centres.length ≤ s.centres.length + 1 := by
  simp only [placeStep]
  split_ifs <;> simp

lemma placeStep_accept_inv (stream : ℕ → Pt) (maxAtt : ℕ) (relaxFactor : ℝ)
    (s : PlaceState)
    (h : ∃ recs, recs.map Prod.fst = s.centres ∧ AcceptOK recs) :
    ∃ recs, recs.map Prod.fst = (placeStep stream maxAtt relaxFactor s).centres ∧
      AcceptOK recs := by
  obtain ⟨recs, hmap, hok⟩ := h
  simp only [placeStep]
  split_ifs with hacc hmax
  · refine ⟨recs ++ [(stream s.idx, s.minDist)], ?_, ?_⟩
    · simp [hmap]
    · rw [AcceptOK, List.pairwise_append]
      refine ⟨hok, List.pairwise_singleton _ _, ?_⟩
      intro r hr q hq
      rw [List.mem_singleton] at hq
      subst hq
      exact hacc r.1 (hmap ▸ List.mem_map_of_mem Prod.fst hr)
  · exact ⟨recs, hmap, hok⟩
  · exact ⟨recs, hmap, hok⟩

lemma placeLoop_length (stream : ℕ → Pt) (maxAtt : ℕ) (relaxFactor : ℝ) (n : ℕ) :
    ∀ fuel (s : PlaceState) (out : PlaceState), s.centres.length ≤ n →
      placeLoop stream maxAtt relaxFactor n fuel s = some out →
      out.centres.length = n := by
  intro fuel
  induction fuel with
  | zero =>
    intro s out hle h
    simp only [placeLoop] at h
    split_ifs at h with hn
    · cases h
      omega
  | succ fuel ih =>
    intro s out hle h
    simp only [placeLoop] at h
    split_ifs at h with hn
    · cases h
      omega
    · have hstep := placeStep_length stream maxAtt relaxFactor s
      exact ih (placeStep stream maxAtt relaxFactor s) out (by omega) h

lemma placeLoop_accept_inv (stream : ℕ → Pt) (maxAtt : ℕ) (relaxFactor : ℝ) (n : ℕ) :
    ∀ fuel (s : PlaceState) (out : PlaceState),
      placeLoop stream maxAtt relaxFactor n fuel s = some out →
      (∃ recs, recs.map Prod.fst = s.centres ∧ AcceptOK recs) →
      ∃ recs, recs.map Prod.fst = out.centres ∧ AcceptOK recs := by
  intro fuel
  induction fuel with
  | zero =>
    intro s out h hinv
    simp only [placeLoop] at h
    split_ifs at h
    · cases h
      exact hinv
  | succ fuel ih =>
    intro s out h hinv
    simp only [placeLoop] at h
    split_ifs at h
    · cases h
      exact hinv
    · exact ih (placeStep stream maxAtt relaxFactor s) out h
        (placeStep_accept_inv stream maxAtt relaxFactor s hinv)

/-- C5: whenever `random_cell_positions` returns (the loop terminates within
the fuel), it returns exactly `n` points; those points are the accepted
candidates in acceptance order, each accepted only because its distance to
every already-accepted centre strictly exceeded the then-current minimum
distance (the acceptance records `recs`); and a loop iteration never removes
accepted centres — it only ever appends. -/
theorem random_cell_positions_accept_invariants (stream : ℕ → Pt) (fuel n : ℕ)
    (d : ℝ) (cs : List Pt) (_hn : 1 ≤ n)
    (h : random_cell_positions stream fuel n d = some cs) :
    cs.length = n ∧
    (∃ recs : List (Pt × ℝ), recs.map Prod.fst = cs ∧ AcceptOK recs) ∧
    ∀ (maxAtt : ℕ) (relaxFactor : ℝ) (s : PlaceState), ∃ tail,
      (placeStep stream maxAtt relaxFactor s).centres = s.centres ++ tail := by
  rw [random_cell_positions] at h
  obtain ⟨out, hout, hcs⟩ := Option.map_eq_some'.mp h
  subst hcs
  refine ⟨placeLoop_length stream 6000 0.9 n fuel _ out (by simp) hout, ?_, ?_⟩
  · exact placeLoop_accept_inv stream 6000 0.9 n fuel _ out hout
      ⟨[], by simp, List.Pairwise.nil⟩
  · intro maxAtt relaxFactor s
    exact placeStep_centres stream maxAtt relaxFactor s

/-- Witness for C5: a constant stream at the origin, one cell requested, one
step of fuel. -/
theorem random_cell_positions_accept_invariants_witness :
    ([(⟨0, 0⟩ : Pt)].length = 1 ∧
      (∃ recs : List (Pt × ℝ), recs.map Prod.fst = [(⟨0, 0⟩ : Pt)] ∧ AcceptOK recs) ∧
      ∀ (maxAtt : ℕ) (relaxFactor : ℝ) (s : PlaceState), ∃ tail,
        (placeStep (fun _ => (⟨0, 0⟩ : Pt)) maxAtt relaxFactor s).centres =
          s.centres ++ tail) :=
  random_cell_positions_accept_invariants (fun _ => ⟨0, 0⟩) 1 1 0.55 [⟨0, 0⟩]
    le_rfl (by simp [random_cell_positions, placeLoop, placeStep])

lemma cutPieces_outside (center : Pt) (radius : ℝ) (a b : Pt) (inter : List Pt) :
    ∀ s ∈ cutPieces center radius a b inter,
      s.outside = pieceTag center radius s.a s.b := by
  intro s hs
  simp only [cutPieces, List.mem_map] at hs
  obtain ⟨q, _, rfl⟩ := hs
  rfl

lemma splitPassT_erase (c : Circle) (segs : List TSeg) :
    (splitPassT c segs).map eraseT = splitPass c (segs.map eraseT) := by
  induction segs with
  | nil => rfl
  | cons sg rest ih =>
    simp only [splitPassT, splitPass, List.flatMap_cons, List.map_append,
      List.map_cons] at ih ⊢
    cases hsci : segment_circle_intersection sg.a sg.b c.center c.radius with
    | none => simp [eraseT, hsci, ih]
    | some inter =>
      simp only [hsci, List.map_append, List.map_map]
      rw [ih]
      congr 1
      have hid : (eraseT ∘ fun s : Seg => (⟨s.a, s.b, s.outside, some c⟩ : TSeg)) = id :=
        funext fun s => rfl
      rw [hid, List.map_id]
      have hsci2 : segment_circle_intersection (eraseT sg).a (eraseT sg).b
          c.center c.radius = some inter := hsci
      rw [hsci2]
      exact rfl

lemma foldT_erase (circles : List Circle) : ∀ segs : List TSeg,
    (circles.foldl (fun acc c => splitPassT c acc) segs).map eraseT =
      circles.foldl (fun acc c => splitPass c acc) (segs.map eraseT) := by
  induction circles with
  | nil => intro segs; rfl
  | cons c cs ih =>
    intro segs
    simp only [List.foldl_cons]
    rw [ih, splitPassT_erase]

lemma splitPassT_tagOK (c : Circle) (segs : List TSeg)
    (h : ∀ sg ∈ segs, TagOK sg) : ∀ sg ∈ splitPassT c segs, TagOK sg := by
  intro sg hsg
  simp only [splitPassT, List.mem_flatMap] at hsg
  obtain ⟨t, ht, hmem⟩ := hsg
  cases hsci : segment_circle_intersection t.a t.b c.center c.radius with
  | none =>
    rw [hsci] at hmem
    rw [List.mem_singleton] at hmem
    subst hmem
    exact h sg ht
  | some inter =>
    rw [hsci] at hmem
    simp only [List.mem_map] at hmem
    obtain ⟨s, hs, rfl⟩ := hmem
    show s.outside = pieceTag c.center c.radius s.a s.b
    exact cutPieces_outside c.center c.radius t.a t.b inter s hs

lemma foldT_tagOK (circles : List Circle) : ∀ segs : List TSeg,
    (∀ sg ∈ segs, TagOK sg) →
    ∀ sg ∈ circles.foldl (fun acc c => splitPassT c acc) segs, TagOK sg := by
  induction circles with
  | nil => intro segs h; exact h
  | cons c cs ih => intro segs h; exact ih _ (splitPassT_tagOK c segs h)

/-- C2: the instrumented splitter (which erases to the source's computation,
first conjunct) satisfies the tag discipline (second conjunct): each output
piece's final tag is determined solely by the midpoint containment test
against the last circle in iteration order whose intersection test fired on
it, and a piece never touched by any circle keeps the initial `outside`
tag — the tag is not an aggregate inside-any-circle predicate.  Third
conjunct: a cut piece is tagged not-outside (`false`) exactly when its
midpoint is strictly inside the cutting circle. -/
theorem draw_smart_line_tag_last_touching_circle (p1 p2 : Pt) (circles : List Circle) :
    (draw_smart_lineT p1 p2 circles).map eraseT = draw_smart_line p1 p2 circles ∧
    (∀ sg ∈ draw_smart_lineT p1 p2 circles, TagOK sg) ∧
    ∀ (center : Pt) (radius : ℝ) (s e : Pt),
      (pieceTag center radius s e = false ↔
        hypot ((midOf s e).x - center.x) ((midOf s e).y - center.y) < radius) := by
  refine ⟨?_, ?_, ?_⟩
  · rw [draw_smart_lineT, draw_smart_line, foldT_erase]
    rfl
  · refine foldT_tagOK circles _ ?_
    intro sg hsg
    rw [List.mem_singleton] at hsg
    subst hsg
    rfl
  · intro center radius s e
    rw [pieceTag]
    split_ifs with h <;> simp [h]

lemma passRel_sound {c : Circle} {segs out : List Seg} (h : PassRel c segs out) :
    out = splitPass c segs := by
  induction h with
  | nil => rfl
  | keep sg hnone hrest ih =>
    simp only [splitPass, List.flatMap_cons, hnone] at ih ⊢
    rw [ih]
    rfl
  | cut sg inter hsome hrest ih =>
    simp only [splitPass, List.flatMap_cons, hsome] at ih ⊢
    rw [ih]

lemma passRel_complete (c : Circle) : ∀ segs : List Seg,
    PassRel c segs (splitPass c segs) := by
  intro segs
  induction segs with
  | nil => exact PassRel.nil
  | cons sg rest ih =>
    cases hsci : segment_circle_intersection sg.a sg.b c.center c.radius with
    | none =>
      have heq : splitPass c (sg :: rest) = sg :: splitPass c rest := by
        simp only [splitPass, List.flatMap_cons, hsci]
        rfl
      exact heq ▸ PassRel.keep sg hsci ih
    | some inter =>
      have heq : splitPass c (sg :: rest) =
          cutPieces c.center c.radius sg.a sg.b inter ++ splitPass c rest := by
        simp only [splitPass, List.flatMap_cons, hsci]
      exact heq ▸ PassRel.cut sg inter hsci ih

lemma splitLoop_sound : ∀ {cs : List Circle} {segs out : List Seg},
    SplitLoop cs segs out →
    out = cs.foldl (fun acc c => splitPass c acc) segs := by
  intro cs segs out h
  induction h with
  | done segs => rfl
  | step c hpass hloop ih =>
    rw [List.foldl_cons, ih, passRel_sound hpass]

/-- C9: the splitting computation of `draw_smart_line` is deterministic — any
execution of its operational reading produces exactly the value of the pure
function `draw_smart_line`, so two runs on the same segment and circle list
yield identical sub-segment lists: no hidden mutable state, no randomness. -/
theorem split_deterministic (p1 p2 : Pt) (circles : List Circle)
    (out1 out2 : List Seg) (h1 : SplitRel p1 p2 circles out1)
    (h2 : SplitRel p1 p2 circles out2) :
    out1 = draw_smart_line p1 p2 circles ∧ out1 = out2 := by
  have e1 := splitLoop_sound h1
  have e2 := splitLoop_sound h2
  exact ⟨e1, e1.trans e2.symm⟩

/-- Witness for C9: two executions on a concrete segment with no circles. -/
theorem split_deterministic_witness :
    ([⟨⟨0, 0⟩, ⟨1, 0⟩, true⟩] : List Seg) = draw_smart_line ⟨0, 0⟩ ⟨1, 0⟩ [] ∧
    ([⟨⟨0, 0⟩, ⟨1, 0⟩, true⟩] : List Seg) = [⟨⟨0, 0⟩, ⟨1, 0⟩, true⟩] :=
  split_deterministic ⟨0, 0⟩ ⟨1, 0⟩ [] _ _ (SplitLoop.done _) (SplitLoop.done _)

lemma chainFrom_le (p1 d : Pt) : ∀ (segs : List Seg) (t u : ℝ),
    ChainFrom p1 d t segs u → t ≤ u := by
  intro segs
  induction segs with
  | nil => intro t u h; exact le_of_eq h
  | cons sg rest ih =>
    intro t u h
    obtain ⟨v, htv, _, _, hrest⟩ := h
    exact htv.trans (ih v u hrest)

lemma chainFrom_append (p1 d : Pt) : ∀ (l1 : List Seg) (t v u : ℝ) (l2 : List Seg),
    ChainFrom p1 d t l1 v → ChainFrom p1 d v l2 u →
    ChainFrom p1 d t (l1 ++ l2) u := by
  intro l1
  induction l1 with
  | nil =>
    intro t v u l2 h1 h2
    have ht : t = v := h1
    exact ht ▸ h2
  | cons sg l1 ih =>
    intro t v u l2 h1 h2
    obtain ⟨w, htw, hA, hB, hrest⟩ := h1
    exact ⟨w, htw, hA, hB, ih w v u l2 hrest h2⟩

lemma lexLe_lineAt (p1 d : Pt) (hd : lexPos d) (s t : ℝ) :
    lexLe (lineAt p1 d s) (lineAt p1 d t) ↔ s ≤ t := by
  simp only [lexLe, lineAt, padd, smul]
  rcases hd with hx | ⟨hx0, hy⟩
  · constructor
    · rintro (h | ⟨he, _⟩)
      · have hlt : s * d.x < t * d.x := lt_of_add_lt_add_left h
        exact le_of_lt ((mul_lt_mul_right hx).mp hlt)
      · have heq : s * d.x = t * d.x := by linarith
        exact le_of_eq (mul_right_cancel₀ hx.ne' heq)
    · intro hst
      rcases lt_or_eq_of_le hst with hlt | heq
      · exact Or.inl (add_lt_add_left ((mul_lt_mul_right hx).mpr hlt) p1.x)
      · subst heq
        exact Or.inr ⟨rfl, le_rfl⟩
  · rw [hx0]
    constructor
    · rintro (h | ⟨_, hle⟩)
      · exact absurd h (by simp)
      · have hle2 : s * d.y ≤ t * d.y := le_of_add_le_add_left hle
        exact (mul_le_mul_right hy).mp hle2
    · intro hst
      exact Or.inr ⟨by ring, add_le_add_left ((mul_le_mul_right hy).mpr hst) p1.y⟩

lemma lineAt_reparam (p1 d : Pt) (t u s : ℝ) :
    padd (lineAt p1 d t) (smul s (psub (lineAt p1 d u) (lineAt p1 d t))) =
      lineAt p1 d (t + s * (u - t)) := by
  simp only [lineAt, padd, psub, smul]
  ext <;> ring

lemma rootPt_mem (A B : Pt) (t? : Option ℝ) :
    ∀ q ∈ rootPt A B t?, ∃ s, 0 ≤ s ∧ s ≤ 1 ∧ q = padd A (smul s (psub B A)) := by
  intro q hq
  cases t? with
  | none => simp [rootPt] at hq
  | some t =>
    rw [rootPt] at hq
    split_ifs at hq with hcond
    · rw [List.mem_singleton] at hq
      exact ⟨t, hcond.1, hcond.2, hq⟩
    · simp at hq

lemma sci_mem {A B c : Pt} {r : ℝ} {l : List Pt}
    (h : segment_circle_intersection A B c r = some l) :
    ∀ q ∈ l, ∃ s, 0 ≤ s ∧ s ≤ 1 ∧ q = padd A (smul s (psub B A)) := by
  intro q hq
  rw [segment_circle_intersection] at h
  split_ifs at h
  cases hpts : sciPts A B c r with
  | nil => rw [hpts] at h; exact absurd h (by simp)
  | cons p ps =>
    rw [hpts] at h
    simp only [Option.some.injEq] at h
    subst h
    have hq2 : q ∈ sciPts A B c r := by rw [hpts]; exact hq
    rw [sciPts] at hq2
    rcases List.mem_append.mp hq2 with hm | hm
    · exact rootPt_mem A B _ q hm
    · exact rootPt_mem A B _ q hm

lemma chain_of_sorted (p1 d : Pt) (hd : lexPos d) (center : Pt) (radius : ℝ) :
    ∀ (qs : List Pt) (t u : ℝ) (A : Pt), t ≤ u → A = lineAt p1 d t →
      (∀ q ∈ qs, ∃ s, t ≤ s ∧ s ≤ u ∧ q = lineAt p1 d s) →
      List.Sorted lexLe qs →
      ChainFrom p1 d t
        ((consecPairs (A :: (qs ++ [lineAt p1 d u]))).map
          fun q => ⟨q.1, q.2, pieceTag center radius q.1 q.2⟩) u := by
  intro qs
  induction qs with
  | nil =>
    intro t u A htu hA _ _
    exact ⟨u, htu, hA, rfl, rfl⟩
  | cons q qs ih =>
    intro t u A htu hA hmem hsort
    obtain ⟨s, hts, hsu, hq⟩ := hmem q (List.mem_cons_self q qs)
    refine ⟨s, hts, hA, hq, ?_⟩
    apply ih s u q hsu hq ?_ hsort.of_cons
    intro q2 hq2
    obtain ⟨s2, hts2, hsu2, hq2eq⟩ := hmem q2 (List.mem_cons_of_mem q hq2)
    refine ⟨s2, ?_, hsu2, hq2eq⟩
    have hle : lexLe q q2 := (List.sorted_cons.mp hsort).1 q2 hq2
    rw [hq, hq2eq] at hle
    exact (lexLe_lineAt p1 d hd s s2).mp hle

lemma cutPieces_chain (p1 d : Pt) (hd : lexPos d) (c : Circle) {t v : ℝ} {A B : Pt}
    (htv : t ≤ v) (hA : A = lineAt p1 d t) (hB : B = lineAt p1 d v)
    {inter : List Pt}
    (hsci : segment_circle_intersection A B c.center c.radius = some inter) :
    ChainFrom p1 d t (cutPieces c.center c.radius A B inter) v := by
  rw [cutPieces]
  have hmem : ∀ q ∈ List.insertionSort lexLe inter,
      ∃ s, t ≤ s ∧ s ≤ v ∧ q = lineAt p1 d s := by
    intro q hq
    rw [List.mem_insertionSort] at hq
    obtain ⟨s, h0, h1, hq⟩ := sci_mem hsci q hq
    refine ⟨t + s * (v - t), by nlinarith, by nlinarith, ?_⟩
    rw [hq, hA, hB, lineAt_reparam]
  have hsorted := List.sorted_insertionSort lexLe inter
  rw [hB]
  exact chain_of_sorted p1 d hd c.center c.radius _ t v A htv hA hmem hsorted

lemma splitPass_chain (p1 d : Pt) (hd : lexPos d) (c : Circle) :
    ∀ (segs : List Seg) (t u : ℝ), ChainFrom p1 d t segs u →
      ChainFrom p1 d t (splitPass c segs) u := by
  intro segs
  induction segs with
  | nil => intro t u h; exact h
  | cons sg rest ih =>
    intro t u h
    obtain ⟨v, htv, hA, hB, hrest⟩ := h
    have htail := ih v u hrest
    cases hsci : segment_circle_intersection sg.a sg.b c.center c.radius with
    | none =>
      have heq : splitPass c (sg :: rest) = sg :: splitPass c rest := by
        simp only [splitPass, List.flatMap_cons, hsci]
        rfl
      rw [heq]
      exact ⟨v, htv, hA, hB, htail⟩
    | some inter =>
      have heq : splitPass c (sg :: rest) =
          cutPieces c.center c.radius sg.a sg.b inter ++ splitPass c rest := by
        simp only [splitPass, List.flatMap_cons, hsci]
      rw [heq]
      exact chainFrom_append p1 d _ t v u _
        (cutPieces_chain p1 d hd c htv hA hB hsci) htail

lemma foldl_chain (p1 d : Pt) (hd : lexPos d) :
    ∀ (circles : List Circle) (segs : List Seg) (t u : ℝ),
      ChainFrom p1 d t segs u →
      ChainFrom p1 d t (circles.foldl (fun acc c => splitPass c acc) segs) u := by
  intro circles
  induction circles with
  | nil => intro segs t u h; exact h
  | cons c cs ih =>
    intro segs t u h
    exact ih _ t u (splitPass_chain p1 d hd c segs t u h)

lemma chainFrom_totalLen (p1 d : Pt) : ∀ (segs : List Seg) (t u : ℝ),
    ChainFrom p1 d t segs u →
    totalLen segs = (u - t) * hypot d.x d.y := by
  intro segs
  induction segs with
  | nil =>
    intro t u h
    have ht : t = u := h
    rw [totalLen]
    simp [← ht]
  | cons sg rest ih =>
    intro t u h
    obtain ⟨v, htv, hA, hB, hrest⟩ := h
    have hlen : segLen sg.a sg.b = (v - t) * hypot d.x d.y := by
      rw [hA, hB, segLen, hypot, hypot]
      have e : ((lineAt p1 d v).x - (lineAt p1 d t).x) ^ 2 +
          ((lineAt p1 d v).y - (lineAt p1 d t).y) ^ 2 =
          (v - t) ^ 2 * (d.x ^ 2 + d.y ^ 2) := by
        simp only [lineAt, padd, smul]
        ring
      rw [e, Real.sqrt_mul (sq_nonneg _), Real.sqrt_sq_eq_abs,
        abs_of_nonneg (by linarith : (0 : ℝ) ≤ v - t)]
    have htail := ih v u hrest
    rw [totalLen, List.map_cons, List.sum_cons,
      show (List.map (fun sg => segLen sg.a sg.b) rest).sum = totalLen rest from rfl,
      hlen, htail]
    ring

/-- On a segment whose direction is coordinate-lexicographically increasing
(in particular any left-to-right segment), the Python tuple sort inside the
splitter coincides with sorting by the parameter `t`, and the splitter's
output is then a monotone chain of sub-segments running from `p1` (parameter
0) to `p2` (parameter 1) along the segment whose total path length equals the
original segment's length — the partition property the spec requires of
`split`.  The reversed-segment evaluation above shows exactly this fails for
lexicographically decreasing directions. -/
theorem draw_smart_line_partition_of_lexPos (p1 p2 : Pt) (circles : List Circle)
    (hd : lexPos (psub p2 p1)) :
    ChainFrom p1 (psub p2 p1) 0 (draw_smart_line p1 p2 circles) 1 ∧
    totalLen (draw_smart_line p1 p2 circles) = segLen p1 p2 := by
  have hinit : ChainFrom p1 (psub p2 p1) 0 [⟨p1, p2, true⟩] 1 := by
    refine ⟨1, zero_le_one, ?_, ?_, rfl⟩
    · ext <;> simp [lineAt, padd, smul]
    · ext <;> simp [lineAt, padd, smul, psub]
  have hchain : ChainFrom p1 (psub p2 p1) 0 (draw_smart_line p1 p2 circles) 1 := by
    rw [draw_smart_line]
    exact foldl_chain p1 _ hd circles _ 0 1 hinit
  refine ⟨hchain, ?_⟩
  rw [chainFrom_totalLen p1 (psub p2 p1) _ 0 1 hchain, sub_zero, one_mul]
  rfl

/-- C1 (evidence of the code bug): on the right-to-left segment from (2,0) to
(-2,0) against the unit circle at the origin, `sorted(inter)` orders the two
crossing points (1,0) and (-1,0) coordinate-lexicographically — against the
direction of travel — so the splitter outputs the pieces (2,0)-(-1,0),
(-1,0)-(1,0), (1,0)-(-2,0).  They do not partition the segment: their total
path length is 8 while the original segment has length 4, and every piece —
including the two that reach well outside the circle — is tagged
not-outside.  The spec's required behaviour (cut points sorted by the
parameter t along the segment, concatenation reconstructing the segment,
total length preserved) fails here. -/
theorem draw_smart_line_reversed_segment_bug :
    draw_smart_line ⟨2, 0⟩ ⟨-2, 0⟩ [⟨⟨0, 0⟩, 1⟩] =
      [⟨⟨2, 0⟩, ⟨-1, 0⟩, false⟩, ⟨⟨-1, 0⟩, ⟨1, 0⟩, false⟩,
       ⟨⟨1, 0⟩, ⟨-2, 0⟩, false⟩] ∧
    totalLen (draw_smart_line ⟨2, 0⟩ ⟨-2, 0⟩ [⟨⟨0, 0⟩, 1⟩]) = 8 ∧
    segLen ⟨2, 0⟩ ⟨-2, 0⟩ = 4 := by
  have hdisc : quadDisc ⟨2, 0⟩ ⟨-2, 0⟩ ⟨0, 0⟩ 1 = 64 := by
    norm_num [quadDisc, quadA, quadB, quadC, dot, psub]
  have hsqrt : Real.sqrt (quadDisc ⟨2, 0⟩ ⟨-2, 0⟩ ⟨0, 0⟩ 1) = 8 := by
    rw [hdisc]
    exact sqrt_eval (by norm_num) (by norm_num)
  have hT1 : sciT1 ⟨2, 0⟩ ⟨-2, 0⟩ ⟨0, 0⟩ 1 = some (1 / 4) := by
    simp only [sciT1, fdiv, hsqrt]
    norm_num [quadA, quadB, dot, psub]
  have hT2 : sciT2 ⟨2, 0⟩ ⟨-2, 0⟩ ⟨0, 0⟩ 1 = some (3 / 4) := by
    simp only [sciT2, fdiv, hsqrt]
    norm_num [quadA, quadB, dot, psub]
  have hpts : sciPts ⟨2, 0⟩ ⟨-2, 0⟩ ⟨0, 0⟩ 1 = [⟨1, 0⟩, ⟨-1, 0⟩] := by
    rw [sciPts, hT1, hT2]
    norm_num [rootPt, padd, smul, psub, Pt.ext_iff]
  have hsci : segment_circle_intersection ⟨2, 0⟩ ⟨-2, 0⟩ ⟨0, 0⟩ 1 =
      some [⟨1, 0⟩, ⟨-1, 0⟩] := by
    rw [segment_circle_intersection, if_neg (by rw [hdisc]; norm_num), hpts]
  have hsort : List.insertionSort lexLe [(⟨1, 0⟩ : Pt), ⟨-1, 0⟩] =
      [⟨-1, 0⟩, ⟨1, 0⟩] := by
    simp only [List.insertionSort, List.orderedInsert]
    rw [if_neg (by norm_num [lexLe])]
  have htag1 : pieceTag ⟨0, 0⟩ 1 ⟨2, 0⟩ ⟨-1, 0⟩ = false :=
    pieceTag_of_lt _ _ _ _ (1 / 2) (by norm_num) (by norm_num) (by norm_num)
  have htag2 : pieceTag ⟨0, 0⟩ 1 ⟨-1, 0⟩ ⟨1, 0⟩ = false :=
    pieceTag_of_lt _ _ _ _ 0 le_rfl (by norm_num) (by norm_num)
  have htag3 : pieceTag ⟨0, 0⟩ 1 ⟨1, 0⟩ ⟨-2, 0⟩ = false :=
    pieceTag_of_lt _ _ _ _ (1 / 2) (by norm_num) (by norm_num) (by norm_num)
  have hcut : cutPieces ⟨0, 0⟩ 1 ⟨2, 0⟩ ⟨-2, 0⟩ [⟨1, 0⟩, ⟨-1, 0⟩] =
      [⟨⟨2, 0⟩, ⟨-1, 0⟩, false⟩, ⟨⟨-1, 0⟩, ⟨1, 0⟩, false⟩,
       ⟨⟨1, 0⟩, ⟨-2, 0⟩, false⟩] := by
    rw [cutPieces, hsort]
    simp only [consecPairs, List.cons_append, List.nil_append, List.tail_cons,
      List.zip_cons_cons, List.zip_nil_right, List.map_cons, List.map_nil]
    rw [htag1, htag2, htag3]
  have hdsl : draw_smart_line ⟨2, 0⟩ ⟨-2, 0⟩ [⟨⟨0, 0⟩, 1⟩] =
      [⟨⟨2, 0⟩, ⟨-1, 0⟩, false⟩, ⟨⟨-1, 0⟩, ⟨1, 0⟩, false⟩,
       ⟨⟨1, 0⟩, ⟨-2, 0⟩, false⟩] := by
    rw [draw_smart_line]
    simp only [List.foldl_cons, List.foldl_nil, splitPass, List.flatMap_cons,
      List.flatMap_nil, List.append_nil]
    rw [hsci]
    exact hcut
  refine ⟨hdsl, ?_, ?_⟩
  · rw [hdsl]
    simp only [totalLen, List.map_cons, List.map_nil, List.sum_cons, List.sum_nil]
    rw [segLen_eval ⟨2, 0⟩ ⟨-1, 0⟩ 3 (by norm_num) (by norm_num),
      segLen_eval ⟨-1, 0⟩ ⟨1, 0⟩ 2 (by norm_num) (by norm_num),
      segLen_eval ⟨1, 0⟩ ⟨-2, 0⟩ 3 (by norm_num) (by norm_num)]
    norm_num
  · exact segLen_eval ⟨2, 0⟩ ⟨-2, 0⟩ 4 (by norm_num) (by norm_num)

end Multicell
